import Mathlib

/-!
Verification development for the review-ingestion pipeline
(`load_review.py` of the AmazonRecommendationSystem repository).

The shallow embedding below mirrors `parse_review_files`,
`save_category_data`, `get_existing_users` and `get_completed_categories`.
Python text is modelled as a list of Unicode code points (`List Nat`,
newline = 10); machine JSON parsing (`json.loads` plus the `.get` field
extraction) is abstracted by the `ParsedLine` classification of one input
line, since the parser itself is an external library call.  The relational
store is modelled as the list of inserted rows; a batch insert either
succeeds in full or fails and is rolled back, which is the transactional
behaviour of `executemany` followed by `commit`/`rollback`.
-/

/-- `MAX_REVIEWS = 50000` — the per-category record cap. -/
def MAX_REVIEWS : Nat := 50000

/-- `MAX_ROWS_TO_READ = 300000` — the per-category scan budget.  In the code
it bounds `rows_read`, the count of records accepted by the cutoff. -/
def MAX_ROWS_TO_READ : Nat := 300000

/-- `start_date = datetime.datetime(2020, 1, 1).timestamp() * 1000`:
2020-01-01 as a millisecond timestamp. -/
def start_date : Int := 1577836800000

/-- The fields extracted from one successfully parsed JSON review
(lines 176-192 of `load_review.py`), with the `.get` defaults applied:
a missing field is `none`, except `timestamp` (default `0`) and
`helpful_vote` (default `0`). -/
structure RawReview where
  user_id : Option String
  parent_asin : Option String
  asin : Option String
  rating : Option Int
  title : Option String
  text : Option String
  images : Option String
  timestamp : Int
  verified_purchase : Option Bool
  helpful_vote : Int
deriving DecidableEq

/-- The per-category record shape (`review_data` dict): a `RawReview`
tagged with the source category's filename. -/
structure ReviewData extends RawReview where
  filename : String
deriving DecidableEq

/-- Classification of one text line, abstracting `line.strip()` and
`json.loads(line)`: a whitespace-only line, a line that raises
`JSONDecodeError`, or a successfully parsed review. -/
inductive ParsedLine where
  | blank : ParsedLine
  | malformed : ParsedLine
  | record : RawReview → ParsedLine
deriving DecidableEq

/-- The user ledger (`global_users`): the list of user identifiers known
from the sink and from previously finalized categories.  A row's
`user_id` may be absent (`none`), exactly as in the Python code. -/
abbrev Ledger := List (Option String)

/-- `set.add` on the model of a Python set kept as a duplicate-free list. -/
def insertIfAbsent (u : Option String) (l : Ledger) : Ledger :=
  if u ∈ l then l else l ++ [u]

/-- The mutable per-category scan state of `parse_review_files`
(lines 151-155): the two buffers, the users seen, and the two counters. -/
structure ScanState where
  priority_data : List ReviewData
  other_data : List ReviewData
  file_users : Ledger
  rows_read : Nat
  lines_processed : Nat
deriving DecidableEq

/-- The scan state at the start of a category. -/
def initScanState : ScanState :=
  { priority_data := [], other_data := [], file_users := [],
    rows_read := 0, lines_processed := 0 }

/-- Processing of one line (lines 172-206): blank lines are skipped,
malformed lines only bump `lines_processed`, and a parsed review is
accepted only when `ts >= start_date`; an accepted review is routed to
`priority_data` (and its user recorded in `file_users`) when its user is
in `global_users`, else to `other_data`. -/
def scanStep (gu : Ledger) (fn : String) (st : ScanState) (pl : ParsedLine) : ScanState :=
  match pl with
  | .blank => st
  | .malformed => { st with lines_processed := st.lines_processed + 1 }
  | .record r =>
    let st1 := { st with lines_processed := st.lines_processed + 1 }
    if start_date ≤ r.timestamp then
      let st2 := { st1 with rows_read := st1.rows_read + 1 }
      let rd : ReviewData := { toRawReview := r, filename := fn }
      if r.user_id ∈ gu then
        { st2 with priority_data := st2.priority_data ++ [rd],
                   file_users := insertIfAbsent r.user_id st2.file_users }
      else
        { st2 with other_data := st2.other_data ++ [rd] }
    else st1

/-- The scan loop (lines 163-206) at line granularity: each line is
processed only while `rows_read < MAX_ROWS_TO_READ`; the unprocessed
remainder of the input is returned alongside the final state.  (In the
code the same guard appears on the chunk loop and on the line loop, so at
line granularity a single guard is exact.) -/
def scanLines (gu : Ledger) (fn : String) (st : ScanState) : List ParsedLine → ScanState × List ParsedLine
  | [] => (st, [])
  | pl :: pls =>
    if st.rows_read < MAX_ROWS_TO_READ then
      scanLines gu fn (scanStep gu fn st pl) pls
    else (st, pl :: pls)

/-- The fill loop of the finalization (lines 218-222), generalized over
the cap constant: append entries of `other` while `len(final) < cap`,
adding each appended entry's user to `file_users`. -/
def fillOtherWith (cap : Nat) : List ReviewData → Ledger → List ReviewData → List ReviewData × Ledger
  | final, fu, [] => (final, fu)
  | final, fu, r :: rs =>
    if cap ≤ final.length then (final, fu)
    else fillOtherWith cap (final ++ [r]) (insertIfAbsent r.user_id fu) rs

/-- Finalization (lines 213-222), generalized over the cap constant:
`final = priority.copy()`, `remaining_slots = cap - len(final)` (Python
integer arithmetic, possibly negative), and the fill loop runs only when
`remaining_slots > 0`. -/
def finalizeWith (cap : Nat) (priority : List ReviewData) (fu : Ledger) (other : List ReviewData) : List ReviewData × Ledger :=
  if 0 < (cap : Int) - (priority.length : Int) then fillOtherWith cap priority fu other
  else (priority, fu)

/-- The kept set of one category for a given cap: scan, then finalize. -/
def keptWith (cap : Nat) (gu : Ledger) (fn : String) (pls : List ParsedLine) : List ReviewData :=
  let st := (scanLines gu fn initScanState pls).1
  (finalizeWith cap st.priority_data st.file_users st.other_data).1

/-- One category of `parse_review_files` up to (and including) the ledger
update of line 224: the kept set and the new ledger
`global_users ++ [user for user in file_users if user not in global_users]`. -/
def processCategory (gu : Ledger) (fn : String) (pls : List ParsedLine) : List ReviewData × Ledger :=
  let st := (scanLines gu fn initScanState pls).1
  let fin := finalizeWith MAX_REVIEWS st.priority_data st.file_users st.other_data
  (fin.1, gu ++ fin.2.filter (fun u => decide (u ∉ gu)))

/-- The relational store: the rows of the `review_data` table. -/
structure DBState where
  rows : List ReviewData
deriving DecidableEq

/-- `SELECT DISTINCT user_id FROM review_data`. -/
def get_existing_users (db : DBState) : Ledger :=
  (db.rows.map (fun r => r.user_id)).dedup

/-- `SELECT DISTINCT filename FROM review_data`. -/
def get_completed_categories (db : DBState) : List String :=
  (db.rows.map (fun r => r.filename)).dedup

/-- `save_category_data` (lines 123-129): the batch insert runs inside one
transaction; on success the whole batch is committed, on error the whole
batch is rolled back and the store is unchanged.  `fail` is the oracle
telling whether `executemany` raises for this batch. -/
def save_category_data (db : DBState) (batch : List ReviewData) (fail : Bool) : DBState :=
  if fail then db else { rows := db.rows ++ batch }

/-- The rows of the store belonging to one category. -/
def rowsFor (fn : String) (db : DBState) : List ReviewData :=
  db.rows.filter (fun r => r.filename == fn)

/-- One category's input: its (normalized) filename, the classified lines
its decompressed stream yields, and the persistence-failure oracle. -/
structure CategoryInput where
  filename : String
  lines : List ParsedLine
  saveFails : Bool
deriving DecidableEq

/-- Result of processing one non-skipped category. -/
structure CatStepResult where
  gu : Ledger
  db : DBState
  kept : List ReviewData
deriving DecidableEq

/-- One non-skipped category (lines 145-239): scan and finalize, update
the ledger, then persist the batch only when the kept set is non-empty
(`if not df.empty`). -/
def categoryStep (gu : Ledger) (db : DBState) (c : CategoryInput) : CatStepResult :=
  let pc := processCategory gu c.filename c.lines
  let db2 := if pc.1.isEmpty then db else save_category_data db pc.1 c.saveFails
  { gu := pc.2, db := db2, kept := pc.1 }

/-- Result of a whole run. -/
structure RunResult where
  gu : Ledger
  db : DBState
  processedFiles : List String
deriving DecidableEq

/-- The category loop of `parse_review_files` (lines 138-241): the
completed-filenames set is the one queried at run start and is never
updated during the run; a category whose filename is in it is skipped,
every other category is processed by `categoryStep`. -/
def runAux (completed : List String) (gu : Ledger) (db : DBState) : List CategoryInput → RunResult
  | [] => { gu := gu, db := db, processedFiles := [] }
  | c :: cs =>
    if c.filename ∈ completed then runAux completed gu db cs
    else
      let r := categoryStep gu db c
      let rest := runAux completed r.gu r.db cs
      { gu := rest.gu, db := rest.db, processedFiles := c.filename :: rest.processedFiles }

/-- `parse_review_files` (lines 132-246): query the ledger seed and the
completed set once, then loop over the categories. -/
def parse_review_files (cats : List CategoryInput) (db : DBState) : RunResult :=
  runAux (get_completed_categories db) (get_existing_users db) db cats

/-- `buffer.split(chr(10), 1)` when a newline is present: the text before
the first newline and the text after it. -/
def splitFirstNl : List Nat → Option (List Nat × List Nat)
  | [] => none
  | c :: cs =>
    if c = 10 then some ([], cs)
    else Option.map (fun p => (c :: p.1, p.2)) (splitFirstNl cs)

/-- The inner `while` of the reassembler (lines 169-170), as a structural
recursion: repeatedly split the first newline-terminated line off the
front of the buffer; the returned pair is (lines emitted, leftover buffer
holding no newline).  `drainLines_splitFirstNl_none` and
`drainLines_splitFirstNl_some` below show this equals the loop. -/
def drainLines : List Nat → List (List Nat) × List Nat
  | [] => ([], [])
  | c :: cs =>
    if c = 10 then
      ([] :: (drainLines cs).1, (drainLines cs).2)
    else
      match drainLines cs with
      | ([], _) => ([], c :: cs)
      | (l :: ls, b) => ((c :: l) :: ls, b)

/-- The chunk loop of the reassembler (lines 161-170) over already-decoded
chunks: each chunk is appended to the pending buffer, complete lines are
split off, and when the source is exhausted the leftover buffer is
discarded (the code never parses it). -/
def feedChunks (buffer : List Nat) : List (List Nat) → List (List Nat)
  | [] => []
  | ch :: rest =>
    (drainLines (buffer ++ ch)).1 ++ feedChunks (drainLines (buffer ++ ch)).2 rest

/-- `chunk.decode(utf8, errors=ignore)` modelled on byte lists: a UTF-8
decoder that silently drops ill-formed bytes and a truncated final
sequence, producing code points.  Overlong encodings, surrogates and
out-of-range values are rejected as in Python's strict range checks; on
an invalid byte, decoding resumes at that byte.  The `fuel` argument only
serves structural termination: every step consumes at least one input
byte, so `fuel = length` (as used by `utf8DecodeIgnore`) is exact. -/
def utf8DecodeIgnoreAux : Nat → List Nat → List Nat
  | 0, _ => []
  | _, [] => []
  | fuel + 1, b1 :: rest =>
    if b1 < 0x80 then b1 :: utf8DecodeIgnoreAux fuel rest
    else if b1 < 0xC2 then utf8DecodeIgnoreAux fuel rest
    else if b1 < 0xE0 then
      match rest with
      | [] => []
      | b2 :: rest2 =>
        if 0x80 ≤ b2 ∧ b2 < 0xC0 then
          ((b1 - 0xC0) * 0x40 + (b2 - 0x80)) :: utf8DecodeIgnoreAux fuel rest2
        else utf8DecodeIgnoreAux fuel rest
    else if b1 < 0xF0 then
      match rest with
      | [] => []
      | b2 :: rest2 =>
        if (if b1 = 0xE0 then 0xA0 ≤ b2 ∧ b2 < 0xC0
            else if b1 = 0xED then 0x80 ≤ b2 ∧ b2 < 0xA0
            else 0x80 ≤ b2 ∧ b2 < 0xC0) then
          match rest2 with
          | [] => []
          | b3 :: rest3 =>
            if 0x80 ≤ b3 ∧ b3 < 0xC0 then
              ((b1 - 0xE0) * 0x1000 + (b2 - 0x80) * 0x40 + (b3 - 0x80)) :: utf8DecodeIgnoreAux fuel rest3
            else utf8DecodeIgnoreAux fuel rest2
        else utf8DecodeIgnoreAux fuel rest
    else if b1 < 0xF5 then
      match rest with
      | [] => []
      | b2 :: rest2 =>
        if (if b1 = 0xF0 then 0x90 ≤ b2 ∧ b2 < 0xC0
            else if b1 = 0xF4 then 0x80 ≤ b2 ∧ b2 < 0x90
            else 0x80 ≤ b2 ∧ b2 < 0xC0) then
          match rest2 with
          | [] => []
          | b3 :: rest3 =>
            if 0x80 ≤ b3 ∧ b3 < 0xC0 then
              match rest3 with
              | [] => []
              | b4 :: rest4 =>
                if 0x80 ≤ b4 ∧ b4 < 0xC0 then
                  ((b1 - 0xF0) * 0x40000 + (b2 - 0x80) * 0x1000 + (b3 - 0x80) * 0x40 + (b4 - 0x80)) :: utf8DecodeIgnoreAux fuel rest4
                else utf8DecodeIgnoreAux fuel rest3
            else utf8DecodeIgnoreAux fuel rest2
        else utf8DecodeIgnoreAux fuel rest
    else utf8DecodeIgnoreAux fuel rest

/-- Ignore-errors UTF-8 decoding of a whole byte chunk. -/
def utf8DecodeIgnore (l : List Nat) : List Nat :=
  utf8DecodeIgnoreAux l.length l

/-- The reassembler applied to the raw byte chunks exactly as in the code:
each chunk is decoded independently with errors ignored, then fed to the
line splitter. -/
def linesFromByteChunks (bcs : List (List Nat)) : List (List Nat) :=
  feedChunks [] (bcs.map utf8DecodeIgnore)

/-- Whether a classified line would be accepted as a candidate by the
scan: a successfully parsed record whose timestamp passes the cutoff. -/
def isCandidate : ParsedLine → Bool
  | .record r => decide (start_date ≤ r.timestamp)
  | _ => false

/-- A sample review passing the cutoff (timestamp 2020-09-13 in ms). -/
def exampleReview : RawReview :=
  { user_id := some "U", parent_asin := none, asin := none, rating := none,
    title := none, text := none, images := none, timestamp := 1600000000000,
    verified_purchase := none, helpful_vote := 0 }

/-- A sample review rejected by the cutoff (timestamp 0 < start_date). -/
def earlyReview : RawReview :=
  { user_id := some "V", parent_asin := none, asin := none, rating := none,
    title := none, text := none, images := none, timestamp := 0,
    verified_purchase := none, helpful_vote := 0 }

/-- `exampleReview` as a kept row of category "f". -/
def exampleRD : ReviewData :=
  { toRawReview := exampleReview, filename := "f" }

/-- A line that the scan accepts. -/
def goodLine : ParsedLine := ParsedLine.record exampleReview

/-- A line that parses but is rejected by the timestamp cutoff. -/
def badLine : ParsedLine := ParsedLine.record earlyReview

/-! ## Reassembler lemmas -/

/-- Unfolding equation of `drainLines` on a non-empty buffer. -/
theorem drainLines_cons (c : Nat) (cs : List Nat) :
    drainLines (c :: cs) =
      if c = 10 then ([] :: (drainLines cs).1, (drainLines cs).2)
      else match drainLines cs with
        | ([], _) => ([], c :: cs)
        | (l :: ls, b) => ((c :: l) :: ls, b) := by
  rw [drainLines]

/-- `drainLines` on a buffer starting with a newline. -/
theorem drainLines_cons_nl (cs : List Nat) :
    drainLines (10 :: cs) = ([] :: (drainLines cs).1, (drainLines cs).2) := by
  rw [drainLines_cons, if_pos rfl]

/-- `drainLines` on a buffer starting with a non-newline, no line found. -/
theorem drainLines_cons_ne_nil (c : Nat) (cs b : List Nat) (hc : ¬ c = 10)
    (h : drainLines cs = ([], b)) : drainLines (c :: cs) = ([], c :: cs) := by
  rw [drainLines_cons, if_neg hc, h]

/-- `drainLines` on a buffer starting with a non-newline, line found. -/
theorem drainLines_cons_ne_cons (c : Nat) (cs l b : List Nat) (ls : List (List Nat))
    (hc : ¬ c = 10) (h : drainLines cs = (l :: ls, b)) :
    drainLines (c :: cs) = ((c :: l) :: ls, b) := by
  rw [drainLines_cons, if_neg hc, h]

/-- When the buffer holds no newline, the line loop does not run:
`drainLines` emits nothing and leaves the buffer unchanged. -/
theorem drainLines_no_nl (s : List Nat) (h : 10 ∉ s) : drainLines s = ([], s) := by
  induction s with
  | nil => rfl
  | cons c cs ih =>
    simp only [List.mem_cons, not_or] at h
    have hc : ¬ c = 10 := fun hx => h.1 hx.symm
    exact drainLines_cons_ne_nil c cs cs hc (ih h.2)

/-- Faithfulness of `drainLines` to the `while` loop, exit case: when no
newline is in the buffer the loop stops with the buffer intact. -/
theorem drainLines_splitFirstNl_none (s : List Nat) (h : splitFirstNl s = none) :
    drainLines s = ([], s) := by
  induction s with
  | nil => rfl
  | cons c cs ih =>
    by_cases hc : c = 10
    · simp [splitFirstNl, hc] at h
    · simp only [splitFirstNl, hc, if_false] at h
      cases hs : splitFirstNl cs with
      | none => exact drainLines_cons_ne_nil c cs cs hc (ih hs)
      | some p => rw [hs] at h; simp at h

/-- Faithfulness of `drainLines` to the `while` loop, iteration case: when
a newline is present the loop emits `buffer.split(chr(10), 1)[0]` and
continues on the remainder. -/
theorem drainLines_splitFirstNl_some (s : List Nat) :
    ∀ l r, splitFirstNl s = some (l, r) →
      drainLines s = (l :: (drainLines r).1, (drainLines r).2) := by
  induction s with
  | nil => intro l r h; simp [splitFirstNl] at h
  | cons c cs ih =>
    intro l r h
    by_cases hc : c = 10
    · subst hc
      rw [show splitFirstNl (10 :: cs) = some ([], cs) from by simp [splitFirstNl]] at h
      simp only [Option.some.injEq, Prod.mk.injEq] at h
      rw [← h.1, ← h.2, drainLines_cons_nl]
    · simp only [splitFirstNl, hc, if_false] at h
      cases hs : splitFirstNl cs with
      | none => rw [hs] at h; simp at h
      | some p =>
        rw [hs] at h
        simp only [Option.map, Option.some.injEq, Prod.mk.injEq] at h
        have hp : drainLines cs = (p.1 :: (drainLines p.2).1, (drainLines p.2).2) :=
          ih p.1 p.2 (by rw [hs])
        rw [← h.1, ← h.2]
        exact drainLines_cons_ne_cons c cs p.1 (drainLines p.2).2 (drainLines p.2).1 hc hp

/-- Soundness of the line split: re-joining the emitted lines with
newlines and appending the leftover buffer gives back the input, and the
leftover buffer holds no newline. -/
theorem drainLines_spec (s : List Nat) :
    ((drainLines s).1.map (fun l => l ++ [10])).flatten ++ (drainLines s).2 = s ∧
      10 ∉ (drainLines s).2 := by
  induction s with
  | nil => simp [drainLines]
  | cons c cs ih =>
    by_cases hc : c = 10
    · subst hc
      rw [drainLines_cons_nl]
      constructor
      · simp [ih.1]
      · exact ih.2
    · rcases h : drainLines cs with ⟨l1, b⟩
      rw [h] at ih
      rcases l1 with _ | ⟨l, ls⟩
      · have hb : b = cs := by simpa using ih.1
        rw [drainLines_cons_ne_nil c cs b hc h]
        refine ⟨by simp, ?_⟩
        intro hmem
        rcases List.mem_cons.mp hmem with h10 | h10
        · exact hc h10.symm
        · exact ih.2 (hb ▸ h10)
      · rw [drainLines_cons_ne_cons c cs l b ls hc h]
        refine ⟨?_, ih.2⟩
        simp only [List.map_cons, List.flatten_cons, List.cons_append,
          List.append_assoc] at ih ⊢
        rw [ih.1]

/-- The leftover buffer of the line loop never holds a newline. -/
theorem drainLines_buffer_no_nl (s : List Nat) : 10 ∉ (drainLines s).2 :=
  (drainLines_spec s).2

/-- Splitting lines off `s ++ t` is splitting them off `s`, then off the
leftover buffer of `s` followed by `t`. -/
theorem drainLines_append (s t : List Nat) :
    drainLines (s ++ t) =
      ((drainLines s).1 ++ (drainLines ((drainLines s).2 ++ t)).1,
        (drainLines ((drainLines s).2 ++ t)).2) := by
  induction s with
  | nil => simp [drainLines]
  | cons c cs ih =>
    by_cases hc : c = 10
    · subst hc
      rw [List.cons_append, drainLines_cons_nl, drainLines_cons_nl, ih]
      simp
    · rcases h : drainLines cs with ⟨l1, b⟩
      rcases l1 with _ | ⟨l, ls⟩
      · rw [drainLines_cons_ne_nil c cs b hc h, List.cons_append]
        simp
      · have hA : drainLines (cs ++ t) =
            (l :: (ls ++ (drainLines (b ++ t)).1), (drainLines (b ++ t)).2) := by
          rw [ih, h]; rfl
        rw [List.cons_append,
          drainLines_cons_ne_cons c (cs ++ t) l (drainLines (b ++ t)).2
            (ls ++ (drainLines (b ++ t)).1) hc hA,
          drainLines_cons_ne_cons c cs l b ls hc h]
        simp

/-- Feeding chunks with a newline-free pending buffer emits exactly the
complete lines of the buffer followed by the joined chunks. -/
theorem feedChunks_eq (chunks : List (List Nat)) :
    ∀ b, 10 ∉ b → feedChunks b chunks = (drainLines (b ++ chunks.flatten)).1 := by
  induction chunks with
  | nil =>
    intro b hb
    simp [feedChunks, drainLines_no_nl b hb]
  | cons ch rest ih =>
    intro b hb
    simp only [feedChunks, List.flatten_cons]
    rw [ih (drainLines (b ++ ch)).2 (drainLines_buffer_no_nl (b ++ ch)),
      ← List.append_assoc, drainLines_append (b ++ ch) rest.flatten]

/-- C8 (amended): for every character stream and every way of splitting it
into chunks at character boundaries, the Line Reassembler yields the same
sequence of complete text lines as processing the whole stream in one
chunk — in original order, none truncated, none duplicated, independently
of where chunk boundaries fall, including mid-line. -/
theorem C8_reassembler_invariance (chunks : List (List Nat)) :
    feedChunks [] chunks = feedChunks [] [chunks.flatten] := by
  rw [feedChunks_eq chunks [] (by simp), feedChunks_eq [chunks.flatten] [] (by simp)]
  simp

/-- C8 (counterexample): the same byte stream `C3 A9 0A` (the UTF-8
encoding of one accented character followed by a newline) split once as a
whole chunk and once with the chunk boundary inside the character yields
different line sequences, because each chunk is decoded independently
with errors ignored. -/
theorem C8_chunking_counterexample :
    ([[0xC3, 0xA9, 10]] : List (List Nat)).flatten =
        ([[0xC3], [0xA9, 10]] : List (List Nat)).flatten ∧
      linesFromByteChunks [[0xC3, 0xA9, 10]] ≠ linesFromByteChunks [[0xC3], [0xA9, 10]] := by
  decide

/-- C10: when the source is exhausted, any buffer content after the last
newline is silently discarded — it never becomes a line, so it is never
parsed, never counted against any budget, and never appears in any kept
set: the scan and the kept set over a stream `s ++ t` with `t` free of
newlines equal those over `s` alone, for every line parser. -/
theorem C10_trailing_buffer_discarded (parse : List Nat → ParsedLine)
    (gu : Ledger) (fn : String) (s t : List Nat) (h : 10 ∉ t) :
    feedChunks [] [s ++ t] = feedChunks [] [s] ∧
      scanLines gu fn initScanState ((feedChunks [] [s ++ t]).map parse) =
        scanLines gu fn initScanState ((feedChunks [] [s]).map parse) ∧
      keptWith MAX_REVIEWS gu fn ((feedChunks [] [s ++ t]).map parse) =
        keptWith MAX_REVIEWS gu fn ((feedChunks [] [s]).map parse) := by
  have h1 : feedChunks [] [s ++ t] = feedChunks [] [s] := by
    rw [feedChunks_eq [s ++ t] [] (by simp), feedChunks_eq [s] [] (by simp)]
    simp only [List.flatten_cons, List.flatten_nil, List.append_nil, List.nil_append]
    rw [drainLines_append s t]
    have hbt : (10 : Nat) ∉ (drainLines s).2 ++ t := by
      intro hx
      rcases List.mem_append.mp hx with hx | hx
      · exact drainLines_buffer_no_nl s hx
      · exact h hx
    rw [drainLines_no_nl ((drainLines s).2 ++ t) hbt]
    simp
  exact ⟨h1, by rw [h1], by rw [h1]⟩

/-- C10 witness: a concrete stream with trailing content `b` after the
last newline yields the same lines as the stream cut at that newline. -/
theorem C10_trailing_buffer_discarded_witness :
    feedChunks [] [[97, 10] ++ [98]] = feedChunks [] [[97, 10]] :=
  (C10_trailing_buffer_discarded (fun _ => ParsedLine.blank) [] "f" [97, 10] [98]
    (by decide)).1

/-! ## Quota sampler lemmas -/

/-- The fill loop appends exactly the first `cap - len(final)` entries of
`other` (truncated subtraction), in arrival order. -/
theorem fillOtherWith_fst (cap : Nat) :
    ∀ (o f : List ReviewData) (fu : Ledger),
      (fillOtherWith cap f fu o).1 = f ++ o.take (cap - f.length) := by
  intro o
  induction o with
  | nil => intro f fu; simp [fillOtherWith]
  | cons r rs ih =>
    intro f fu
    by_cases h : cap ≤ f.length
    · rw [show cap - f.length = 0 from by omega]
      simp [fillOtherWith, h]
    · have hk : cap - f.length = (cap - (f.length + 1)) + 1 := by omega
      simp only [fillOtherWith, if_neg h, ih]
      rw [hk, List.take_succ_cons]
      simp

/-- The finalized kept set is the priority buffer followed by the first
`cap - len(priority)` entries of the other buffer. -/
theorem finalizeWith_fst (cap : Nat) (p : List ReviewData) (fu : Ledger)
    (o : List ReviewData) :
    (finalizeWith cap p fu o).1 = p ++ o.take (cap - p.length) := by
  by_cases h : 0 < (cap : Int) - (p.length : Int)
  · rw [finalizeWith, if_pos h, fillOtherWith_fst]
  · have hz : cap - p.length = 0 := by omega
    rw [finalizeWith, if_neg h, hz]
    simp

/-- C1 (counterexample): when the priority buffer alone exceeds the cap,
the finalized kept set is larger than the cap — `len(kept) <= cap` fails.
Concrete input: 50001 priority records and no other records. -/
theorem C1_cap_counterexample :
    ¬ ((finalizeWith MAX_REVIEWS (List.replicate 50001 exampleRD) [] []).1.length
        ≤ MAX_REVIEWS) := by
  rw [finalizeWith_fst, List.take_nil, List.append_nil, List.length_replicate]
  decide

/-- C1 (amended): the finalized kept set is all of priority (never
truncated, even beyond the cap) followed by entries of other in arrival
order up to the cap, so its size is
`len(priority) + min(len(other), cap - len(priority))` with truncated
subtraction — which also equals `len(priority)` when
`len(priority) >= cap` — and the size is at most the cap whenever
`len(priority) <= cap` (not in general). -/
theorem C1_kept_set_structure (p : List ReviewData) (fu : Ledger) (o : List ReviewData) :
    (finalizeWith MAX_REVIEWS p fu o).1 = p ++ o.take (MAX_REVIEWS - p.length) ∧
      (finalizeWith MAX_REVIEWS p fu o).1.length =
        p.length + min o.length (MAX_REVIEWS - p.length) ∧
      (p.length ≤ MAX_REVIEWS → (finalizeWith MAX_REVIEWS p fu o).1.length ≤ MAX_REVIEWS) := by
  have h := finalizeWith_fst MAX_REVIEWS p fu o
  have hlen : (finalizeWith MAX_REVIEWS p fu o).1.length =
      p.length + min o.length (MAX_REVIEWS - p.length) := by
    rw [h, List.length_append, List.length_take, Nat.min_comm]
  exact ⟨h, hlen, fun hp => by rw [hlen]; omega⟩

/-- C1 witness: a concrete instance where the priority buffer is within
the cap and the kept set indeed respects the cap. -/
theorem C1_kept_set_structure_witness :
    (finalizeWith MAX_REVIEWS [exampleRD] [] [exampleRD]).1.length ≤ MAX_REVIEWS :=
  (C1_kept_set_structure [exampleRD] [] [exampleRD]).2.2 (by decide)

/-! ## Scan termination lemmas -/

/-- One scan step increases the accepted-record counter by at most one. -/
theorem scanStep_rows_le (gu : Ledger) (fn : String) (st : ScanState) (pl : ParsedLine) :
    (scanStep gu fn st pl).rows_read ≤ st.rows_read + 1 := by
  cases pl with
  | blank => exact Nat.le_succ _
  | malformed => exact Nat.le_succ _
  | record r =>
    simp only [scanStep]
    by_cases h : start_date ≤ r.timestamp
    · rw [if_pos h]
      by_cases hm : r.user_id ∈ gu
      · rw [if_pos hm]
      · rw [if_neg hm]
    · rw [if_neg h]
      exact Nat.le_succ _

/-- An accepted record increases the accepted-record counter by exactly one. -/
theorem scanStep_record_rows (gu : Ledger) (fn : String) (st : ScanState)
    (r : RawReview) (h : start_date ≤ r.timestamp) :
    (scanStep gu fn st (ParsedLine.record r)).rows_read = st.rows_read + 1 := by
  simp only [scanStep]
  rw [if_pos h]
  by_cases hm : r.user_id ∈ gu
  · rw [if_pos hm]
  · rw [if_neg hm]

/-- A record rejected by the cutoff only bumps the line counter. -/
theorem scanStep_record_reject (gu : Ledger) (fn : String) (st : ScanState)
    (r : RawReview) (h : r.timestamp < start_date) :
    scanStep gu fn st (ParsedLine.record r) =
      { st with lines_processed := st.lines_processed + 1 } := by
  simp only [scanStep]
  rw [if_neg (not_le.mpr h)]

/-- Scanning `n` accepted lines within the budget accepts all of them. -/
theorem scan_replicate_good (gu : Ledger) (fn : String) :
    ∀ (n : Nat) (st : ScanState), st.rows_read + n ≤ MAX_ROWS_TO_READ →
      ((scanLines gu fn st (List.replicate n goodLine)).1).rows_read = st.rows_read + n := by
  intro n
  induction n with
  | zero => intro st h; simp [scanLines]
  | succ n ih =>
    intro st h
    have hg : st.rows_read < MAX_ROWS_TO_READ := by omega
    have hstep : (scanStep gu fn st goodLine).rows_read = st.rows_read + 1 :=
      scanStep_record_rows gu fn st exampleReview (by decide)
    rw [List.replicate_succ]
    simp only [scanLines, if_pos hg]
    rw [ih (scanStep gu fn st goodLine) (by omega), hstep]
    omega

/-- Scanning `n` lines rejected by the cutoff parses all of them and
accepts none: the accepted-record counter does not move, so the guard
never stops the loop no matter how large `n` is. -/
theorem scan_replicate_bad (gu : Ledger) (fn : String) :
    ∀ (n : Nat) (st : ScanState), st.rows_read < MAX_ROWS_TO_READ →
      ((scanLines gu fn st (List.replicate n badLine)).1).lines_processed =
          st.lines_processed + n ∧
        ((scanLines gu fn st (List.replicate n badLine)).1).rows_read = st.rows_read := by
  intro n
  induction n with
  | zero => intro st h; simp [scanLines]
  | succ n ih =>
    intro st h
    have hstep : scanStep gu fn st badLine =
        { st with lines_processed := st.lines_processed + 1 } :=
      scanStep_record_reject gu fn st earlyReview (by decide)
    rw [List.replicate_succ]
    simp only [scanLines, if_pos h]
    rw [hstep]
    have := ih { st with lines_processed := st.lines_processed + 1 } h
    dsimp only at this
    constructor
    · rw [this.1]; omega
    · exact this.2

/-- C2 (counterexample): the scan does not stop when the record cap
(50,000) is hit — on 50,001 accepted lines it accepts all 50,001 — and
it can read more than 300,000 input lines — on 300,001 lines rejected by
the cutoff it parses all 300,001, because the budget counts accepted
records, not input lines. -/
theorem C2_scan_stop_counterexample :
    ((scanLines [] "f" initScanState (List.replicate 50001 goodLine)).1.rows_read = 50001 ∧
        ¬ ((scanLines [] "f" initScanState (List.replicate 50001 goodLine)).1.rows_read
            ≤ MAX_REVIEWS)) ∧
      ((scanLines [] "f" initScanState (List.replicate 300001 badLine)).1.lines_processed
            = 300001 ∧
        ¬ ((scanLines [] "f" initScanState (List.replicate 300001 badLine)).1.lines_processed
            ≤ MAX_ROWS_TO_READ)) := by
  have h1 := scan_replicate_good [] "f" 50001 initScanState (by decide)
  have h2 := (scan_replicate_bad [] "f" 300001 initScanState (by decide)).1
  rw [show initScanState.rows_read = 0 from rfl] at h1
  rw [show initScanState.lines_processed = 0 from rfl] at h2
  refine ⟨⟨by rw [h1], ?_⟩, ⟨by rw [h2], ?_⟩⟩
  · rw [h1]; decide
  · rw [h2]; decide

/-- C2 (amended): for every category the scan ends exactly when the first
of these occurs: the accepted-record budget (`MAX_ROWS_TO_READ`, 300,000
accepted records) is reached, or the source is exhausted.  The
accepted-record counter never exceeds the budget, and if the scan stops
with input remaining then the budget was reached. -/
theorem C2_scan_termination (gu : Ledger) (fn : String) :
    ∀ (pls : List ParsedLine) (st : ScanState), st.rows_read ≤ MAX_ROWS_TO_READ →
      (scanLines gu fn st pls).1.rows_read ≤ MAX_ROWS_TO_READ ∧
        ((scanLines gu fn st pls).2 ≠ [] →
          (scanLines gu fn st pls).1.rows_read = MAX_ROWS_TO_READ) := by
  intro pls
  induction pls with
  | nil => intro st h; exact ⟨h, fun hx => absurd rfl hx⟩
  | cons pl pls ih =>
    intro st h
    by_cases hg : st.rows_read < MAX_ROWS_TO_READ
    · have h2 : (scanStep gu fn st pl).rows_read ≤ MAX_ROWS_TO_READ := by
        have := scanStep_rows_le gu fn st pl
        omega
      simp only [scanLines, if_pos hg]
      exact ih (scanStep gu fn st pl) h2
    · have heq : st.rows_read = MAX_ROWS_TO_READ := by omega
      simp only [scanLines, if_neg hg]
      exact ⟨h, fun _ => heq⟩

/-- C2 witness: the termination bound applied to a concrete scan. -/
theorem C2_scan_termination_witness :
    (scanLines [] "f" initScanState [goodLine]).1.rows_read ≤ MAX_ROWS_TO_READ :=
  (C2_scan_termination [] "f" [goodLine] initScanState (by decide)).1

/-! ## Scan invariants -/

/-- Any property of the scan state preserved by one step holds after the
whole (budget-guarded) scan loop. -/
theorem scanLines_invariant (gu : Ledger) (fn : String) (P : ScanState → Prop)
    (hstep : ∀ st pl, P st → P (scanStep gu fn st pl)) :
    ∀ (pls : List ParsedLine) (st : ScanState), P st → P (scanLines gu fn st pls).1 := by
  intro pls
  induction pls with
  | nil => intro st h; exact h
  | cons pl pls ih =>
    intro st h
    by_cases hg : st.rows_read < MAX_ROWS_TO_READ
    · simp only [scanLines, if_pos hg]
      exact ih (scanStep gu fn st pl) (hstep st pl h)
    · simp only [scanLines, if_neg hg]
      exact h

/-- One scan step keeps every buffered record's timestamp at or above the
cutoff: only records passing the cutoff are ever appended. -/
theorem scanStep_cutoff_inv (gu : Ledger) (fn : String) (st : ScanState) (pl : ParsedLine)
    (h : (∀ r ∈ st.priority_data, start_date ≤ r.timestamp) ∧
      (∀ r ∈ st.other_data, start_date ≤ r.timestamp)) :
    (∀ r ∈ (scanStep gu fn st pl).priority_data, start_date ≤ r.timestamp) ∧
      (∀ r ∈ (scanStep gu fn st pl).other_data, start_date ≤ r.timestamp) := by
  cases pl with
  | blank => exact h
  | malformed => exact h
  | record r =>
    simp only [scanStep]
    by_cases hts : start_date ≤ r.timestamp
    · rw [if_pos hts]
      by_cases hm : r.user_id ∈ gu
      · rw [if_pos hm]
        dsimp only
        refine ⟨?_, h.2⟩
        intro x hx
        rcases List.mem_append.mp hx with hx | hx
        · exact h.1 x hx
        · rw [List.mem_singleton.mp hx]; exact hts
      · rw [if_neg hm]
        dsimp only
        refine ⟨h.1, ?_⟩
        intro x hx
        rcases List.mem_append.mp hx with hx | hx
        · exact h.2 x hx
        · rw [List.mem_singleton.mp hx]; exact hts
    · rw [if_neg hts]
      exact h

/-- C3: a successfully parsed record below the cutoff only bumps the line
counter (it is accepted by neither buffer), and — for every cap value —
no record with timestamp strictly below the cutoff ever appears in the
category's kept set. -/
theorem C3_timestamp_cutoff (gu : Ledger) (fn : String) (cap : Nat)
    (pls : List ParsedLine) :
    (∀ (st : ScanState) (r : RawReview), r.timestamp < start_date →
        scanStep gu fn st (ParsedLine.record r) =
          { st with lines_processed := st.lines_processed + 1 }) ∧
      ∀ r ∈ keptWith cap gu fn pls, start_date ≤ r.timestamp := by
  constructor
  · intro st r h
    exact scanStep_record_reject gu fn st r h
  · have hinv := scanLines_invariant gu fn
      (fun st => (∀ r ∈ st.priority_data, start_date ≤ r.timestamp) ∧
        (∀ r ∈ st.other_data, start_date ≤ r.timestamp))
      (fun st pl h => scanStep_cutoff_inv gu fn st pl h) pls initScanState
      (by simp [initScanState])
    intro r hr
    simp only [keptWith, finalizeWith_fst] at hr
    rcases List.mem_append.mp hr with hx | hx
    · exact hinv.1 r hx
    · exact hinv.2 r (List.take_subset _ _ hx)

/-- C3 witness: a concrete kept record indeed passes the cutoff. -/
theorem C3_timestamp_cutoff_witness : start_date ≤ exampleRD.timestamp :=
  (C3_timestamp_cutoff [] "f" MAX_REVIEWS [goodLine]).2 exampleRD (by decide)

/-- One scan step classifies by membership in the scan-start ledger only:
priority records' users are in it, other records' users are not. -/
theorem scanStep_classify_inv (gu : Ledger) (fn : String) (st : ScanState) (pl : ParsedLine)
    (h : (∀ r ∈ st.priority_data, r.user_id ∈ gu) ∧
      (∀ r ∈ st.other_data, r.user_id ∉ gu)) :
    (∀ r ∈ (scanStep gu fn st pl).priority_data, r.user_id ∈ gu) ∧
      (∀ r ∈ (scanStep gu fn st pl).other_data, r.user_id ∉ gu) := by
  cases pl with
  | blank => exact h
  | malformed => exact h
  | record r =>
    simp only [scanStep]
    by_cases hts : start_date ≤ r.timestamp
    · rw [if_pos hts]
      by_cases hm : r.user_id ∈ gu
      · rw [if_pos hm]
        dsimp only
        refine ⟨?_, h.2⟩
        intro x hx
        rcases List.mem_append.mp hx with hx | hx
        · exact h.1 x hx
        · rw [List.mem_singleton.mp hx]; exact hm
      · rw [if_neg hm]
        dsimp only
        refine ⟨h.1, ?_⟩
        intro x hx
        rcases List.mem_append.mp hx with hx | hx
        · exact h.2 x hx
        · rw [List.mem_singleton.mp hx]; exact hm
    · rw [if_neg hts]
      exact h

/-- C4: during one category's scan every candidate is classified by
whether its user identifier is in the ledger as of the start of the
category — the ledger is not mutated during the scan, so users first seen
in this category never change the classification of any of its records. -/
theorem C4_classification_snapshot (gu : Ledger) (fn : String) (pls : List ParsedLine) :
    (∀ r ∈ (scanLines gu fn initScanState pls).1.priority_data, r.user_id ∈ gu) ∧
      (∀ r ∈ (scanLines gu fn initScanState pls).1.other_data, r.user_id ∉ gu) :=
  scanLines_invariant gu fn
    (fun st => (∀ r ∈ st.priority_data, r.user_id ∈ gu) ∧
      (∀ r ∈ st.other_data, r.user_id ∉ gu))
    (fun st pl h => scanStep_classify_inv gu fn st pl h) pls initScanState
    (by simp [initScanState])

/-- C4 witness: with the ledger containing exactly user `U`, the record of
user `U` lands in the priority buffer. -/
theorem C4_classification_snapshot_witness :
    exampleRD.user_id ∈ ([some "U"] : Ledger) :=
  (C4_classification_snapshot [some "U"] "f" [goodLine]).1 exampleRD (by decide)

/-! ## Ledger lemmas -/

/-- Membership after a set insert. -/
theorem mem_insertIfAbsent (u v : Option String) (l : Ledger) :
    v ∈ insertIfAbsent u l ↔ v = u ∨ v ∈ l := by
  unfold insertIfAbsent
  by_cases h : u ∈ l
  · rw [if_pos h]
    constructor
    · exact Or.inr
    · rintro (rfl | hv)
      · exact h
      · exact hv
  · rw [if_neg h]
    simp [or_comm]

/-- During the scan, `file_users` holds exactly the users of the priority
buffer (user additions happen only on the priority branch, and every
priority record is added). -/
theorem scanStep_fileusers_inv (gu : Ledger) (fn : String) (st : ScanState) (pl : ParsedLine)
    (h : ∀ u, u ∈ st.file_users ↔ ∃ r ∈ st.priority_data, r.user_id = u) :
    ∀ u, u ∈ (scanStep gu fn st pl).file_users ↔
      ∃ r ∈ (scanStep gu fn st pl).priority_data, r.user_id = u := by
  cases pl with
  | blank => exact h
  | malformed => exact h
  | record r =>
    simp only [scanStep]
    by_cases hts : start_date ≤ r.timestamp
    · rw [if_pos hts]
      by_cases hm : r.user_id ∈ gu
      · rw [if_pos hm]
        dsimp only
        intro u
        rw [mem_insertIfAbsent, h u]
        constructor
        · rintro (rfl | ⟨x, hx, hu⟩)
          · exact ⟨{ toRawReview := r, filename := fn }, by simp⟩
          · exact ⟨x, List.mem_append_left _ hx, hu⟩
        · rintro ⟨x, hx, hu⟩
          rcases List.mem_append.mp hx with hx | hx
          · exact Or.inr ⟨x, hx, hu⟩
          · rw [List.mem_singleton.mp hx] at hu
            exact Or.inl hu.symm
      · rw [if_neg hm]
        exact h
    · rw [if_neg hts]
      exact h

/-- The fill loop adds each appended record's user to `file_users`, so the
exact-user-set invariant carries from `(priority, file_users)` through to
the finalized pair. -/
theorem fillOtherWith_snd_inv (cap : Nat) :
    ∀ (o f : List ReviewData) (fu : Ledger),
      (∀ u, u ∈ fu ↔ ∃ r ∈ f, r.user_id = u) →
      ∀ u, u ∈ (fillOtherWith cap f fu o).2 ↔
        ∃ r ∈ (fillOtherWith cap f fu o).1, r.user_id = u := by
  intro o
  induction o with
  | nil => intro f fu h; exact h
  | cons r rs ih =>
    intro f fu h
    by_cases hc : cap ≤ f.length
    · simp only [fillOtherWith, if_pos hc]
      exact h
    · simp only [fillOtherWith, if_neg hc]
      refine ih (f ++ [r]) (insertIfAbsent r.user_id fu) ?_
      intro u
      rw [mem_insertIfAbsent, h u]
      constructor
      · rintro (rfl | ⟨x, hx, hu⟩)
        · exact ⟨r, by simp⟩
        · exact ⟨x, List.mem_append_left _ hx, hu⟩
      · rintro ⟨x, hx, hu⟩
        rcases List.mem_append.mp hx with hx | hx
        · exact Or.inr ⟨x, hx, hu⟩
        · rw [List.mem_singleton.mp hx] at hu
          exact Or.inl hu.symm

/-- After finalization, `file_users` holds exactly the users of the kept
set. -/
theorem finalizeWith_snd_inv (cap : Nat) (p : List ReviewData) (fu : Ledger)
    (o : List ReviewData) (h : ∀ u, u ∈ fu ↔ ∃ r ∈ p, r.user_id = u) :
    ∀ u, u ∈ (finalizeWith cap p fu o).2 ↔
      ∃ r ∈ (finalizeWith cap p fu o).1, r.user_id = u := by
  unfold finalizeWith
  by_cases hc : 0 < (cap : Int) - (p.length : Int)
  · rw [if_pos hc]
    exact fillOtherWith_snd_inv cap o p fu h
  · rw [if_neg hc]
    exact h

/-- C5: the ledger never shrinks across a category, and the ledger after a
category holds exactly the previous ledger plus the user identifiers of
that category's kept set — users of discarded candidates are not added. -/
theorem C5_ledger_update (gu : Ledger) (fn : String) (pls : List ParsedLine) :
    (∀ u ∈ gu, u ∈ (processCategory gu fn pls).2) ∧
      (∀ u, u ∈ (processCategory gu fn pls).2 ↔
        u ∈ gu ∨ u ∈ (processCategory gu fn pls).1.map (fun r => r.user_id)) := by
  have hscan := scanLines_invariant gu fn
    (fun st => ∀ u, u ∈ st.file_users ↔ ∃ r ∈ st.priority_data, r.user_id = u)
    (fun st pl h => scanStep_fileusers_inv gu fn st pl h) pls initScanState
    (by simp [initScanState])
  have hfin := finalizeWith_snd_inv MAX_REVIEWS
    (scanLines gu fn initScanState pls).1.priority_data
    (scanLines gu fn initScanState pls).1.file_users
    (scanLines gu fn initScanState pls).1.other_data hscan
  have hmain : ∀ u, u ∈ (processCategory gu fn pls).2 ↔
      u ∈ gu ∨ u ∈ (processCategory gu fn pls).1.map (fun r => r.user_id) := by
    intro u
    simp only [processCategory, List.mem_append, List.mem_filter,
      decide_eq_true_eq, List.mem_map]
    constructor
    · rintro (hu | ⟨hu, _⟩)
      · exact Or.inl hu
      · exact Or.inr ((hfin u).mp hu)
    · rintro (hu | hu)
      · exact Or.inl hu
      · by_cases hg : u ∈ gu
        · exact Or.inl hg
        · exact Or.inr ⟨(hfin u).mpr hu, hg⟩
  exact ⟨fun u hu => (hmain u).mpr (Or.inl hu), hmain⟩

/-- C5 witness: the new user of a kept record is in the updated ledger. -/
theorem C5_ledger_update_witness :
    some "U" ∈ (processCategory [] "f" [goodLine]).2 :=
  ((C5_ledger_update [] "f" [goodLine]).2 (some "U")).mpr (Or.inr (by decide))

/-! ## Run-level lemmas -/

/-- One scan step only buffers records tagged with the scanned category's
filename. -/
theorem scanStep_filename_inv (gu : Ledger) (fn : String) (st : ScanState) (pl : ParsedLine)
    (h : (∀ r ∈ st.priority_data, r.filename = fn) ∧
      (∀ r ∈ st.other_data, r.filename = fn)) :
    (∀ r ∈ (scanStep gu fn st pl).priority_data, r.filename = fn) ∧
      (∀ r ∈ (scanStep gu fn st pl).other_data, r.filename = fn) := by
  cases pl with
  | blank => exact h
  | malformed => exact h
  | record r =>
    simp only [scanStep]
    by_cases hts : start_date ≤ r.timestamp
    · rw [if_pos hts]
      by_cases hm : r.user_id ∈ gu
      · rw [if_pos hm]
        dsimp only
        refine ⟨?_, h.2⟩
        intro x hx
        rcases List.mem_append.mp hx with hx | hx
        · exact h.1 x hx
        · rw [List.mem_singleton.mp hx]
      · rw [if_neg hm]
        dsimp only
        refine ⟨h.1, ?_⟩
        intro x hx
        rcases List.mem_append.mp hx with hx | hx
        · exact h.2 x hx
        · rw [List.mem_singleton.mp hx]
    · rw [if_neg hts]
      exact h

/-- Every record of a category's kept set carries that category's
filename. -/
theorem kept_filename (gu : Ledger) (fn : String) (pls : List ParsedLine) :
    ∀ r ∈ (processCategory gu fn pls).1, r.filename = fn := by
  have hinv := scanLines_invariant gu fn
    (fun st => (∀ r ∈ st.priority_data, r.filename = fn) ∧
      (∀ r ∈ st.other_data, r.filename = fn))
    (fun st pl h => scanStep_filename_inv gu fn st pl h) pls initScanState
    (by simp [initScanState])
  intro r hr
  simp only [processCategory, finalizeWith_fst] at hr
  rcases List.mem_append.mp hr with hx | hx
  · exact hinv.1 r hx
  · exact hinv.2 r (List.take_subset _ _ hx)

/-- Processing one category never touches the stored rows of a different
category. -/
theorem categoryStep_rowsFor_ne (gu : Ledger) (db : DBState) (c : CategoryInput)
    (fn : String) (hne : c.filename ≠ fn) :
    rowsFor fn (categoryStep gu db c).db = rowsFor fn db := by
  unfold categoryStep
  dsimp only
  by_cases he : (processCategory gu c.filename c.lines).1.isEmpty
  · rw [if_pos he]
  · rw [if_neg he]
    unfold save_category_data
    by_cases hf : c.saveFails
    · rw [if_pos hf]
    · rw [if_neg hf]
      unfold rowsFor
      dsimp only
      rw [List.filter_append]
      have hnil : (processCategory gu c.filename c.lines).1.filter
          (fun r => r.filename == fn) = [] := by
        rw [List.filter_eq_nil_iff]
        intro r hr
        rw [kept_filename gu c.filename c.lines r hr]
        simp [hne]
      rw [hnil, List.append_nil]

/-- A filename in the startup completed set is never processed during the
loop and its stored rows are untouched. -/
theorem runAux_completed_skip (fn : String) :
    ∀ (cats : List CategoryInput) (completed : List String) (gu : Ledger) (db : DBState),
      fn ∈ completed →
      fn ∉ (runAux completed gu db cats).processedFiles ∧
        rowsFor fn (runAux completed gu db cats).db = rowsFor fn db := by
  intro cats
  induction cats with
  | nil => intro completed gu db h; exact ⟨by simp [runAux], rfl⟩
  | cons c cs ih =>
    intro completed gu db h
    by_cases hc : c.filename ∈ completed
    · simp only [runAux, if_pos hc]
      exact ih completed gu db h
    · simp only [runAux, if_neg hc]
      have hne : c.filename ≠ fn := fun he => hc (he ▸ h)
      have hrows := categoryStep_rowsFor_ne gu db c fn hne
      have hrest := ih completed (categoryStep gu db c).gu (categoryStep gu db c).db h
      constructor
      · intro hmem
        rcases List.mem_cons.mp hmem with he | hmem
        · exact hne he.symm
        · exact hrest.1 hmem
      · rw [hrest.2, hrows]

/-- C6: a category whose filename is in the sink's completed-filenames set
— queried once before any category is processed — is never re-scanned
during the run: it never appears among the processed categories and no
rows are ever written for it. -/
theorem C6_completed_skip (db : DBState) (cats : List CategoryInput) (fn : String)
    (h : fn ∈ get_completed_categories db) :
    fn ∉ (parse_review_files cats db).processedFiles ∧
      rowsFor fn ((parse_review_files cats db).db) = rowsFor fn db :=
  runAux_completed_skip fn cats (get_completed_categories db) (get_existing_users db) db h

/-- C6 witness: a store already holding a row for category "f" makes a run
over category "f" skip it. -/
theorem C6_completed_skip_witness :
    "f" ∉ (parse_review_files [{ filename := "f", lines := [goodLine], saveFails := false }]
        { rows := [exampleRD] }).processedFiles :=
  (C6_completed_skip { rows := [exampleRD] }
    [{ filename := "f", lines := [goodLine], saveFails := false }] "f" (by decide)).1

/-- C7: when a category's batch insert fails, the whole batch is rolled
back — the store is exactly as before, so the category has zero rows and
its filename stays out of the completed set (it will be retried on the
next run) — and the run continues with the remaining categories from the
unchanged store. -/
theorem C7_batch_atomicity (gu : Ledger) (db : DBState) (c : CategoryInput)
    (completed : List String) (rest : List CategoryInput) (hfail : c.saveFails = true) :
    (categoryStep gu db c).db = db ∧
      (rowsFor c.filename db = [] → rowsFor c.filename (categoryStep gu db c).db = []) ∧
      (c.filename ∉ get_completed_categories db →
        c.filename ∉ get_completed_categories (categoryStep gu db c).db) ∧
      (c.filename ∉ completed →
        runAux completed gu db (c :: rest) =
          { gu := (runAux completed (categoryStep gu db c).gu db rest).gu,
            db := (runAux completed (categoryStep gu db c).gu db rest).db,
            processedFiles :=
              c.filename ::
                (runAux completed (categoryStep gu db c).gu db rest).processedFiles }) := by
  have hdb : (categoryStep gu db c).db = db := by
    unfold categoryStep
    dsimp only
    by_cases he : (processCategory gu c.filename c.lines).1.isEmpty
    · rw [if_pos he]
    · rw [if_neg he]
      unfold save_category_data
      rw [hfail, if_pos rfl]
  refine ⟨hdb, fun h0 => by rw [hdb]; exact h0, fun hnc => by rw [hdb]; exact hnc,
    fun hnc => ?_⟩
  simp only [runAux, if_neg hnc]
  rw [hdb]

/-- C7 witness: a failing batch leaves the store unchanged. -/
theorem C7_batch_atomicity_witness :
    (categoryStep [] { rows := [] }
        { filename := "f", lines := [goodLine], saveFails := true }).db = { rows := [] } :=
  (C7_batch_atomicity [] { rows := [] }
    { filename := "f", lines := [goodLine], saveFails := true } [] [] rfl).1

/-- One scan step on a non-candidate line leaves both buffers unchanged. -/
theorem scanStep_no_candidate (gu : Ledger) (fn : String) (st : ScanState)
    (pl : ParsedLine) (h : isCandidate pl = false) :
    (scanStep gu fn st pl).priority_data = st.priority_data ∧
      (scanStep gu fn st pl).other_data = st.other_data := by
  cases pl with
  | blank => exact ⟨rfl, rfl⟩
  | malformed => exact ⟨rfl, rfl⟩
  | record r =>
    simp only [isCandidate, decide_eq_false_iff_not] at h
    rw [scanStep_record_reject gu fn st r (not_le.mp h)]
    exact ⟨rfl, rfl⟩

/-- A scan over lines none of which is an accepted candidate leaves both
buffers unchanged. -/
theorem scan_no_candidates (gu : Ledger) (fn : String) :
    ∀ (pls : List ParsedLine), pls.all (fun pl => !(isCandidate pl)) = true →
      ∀ st, (scanLines gu fn st pls).1.priority_data = st.priority_data ∧
        (scanLines gu fn st pls).1.other_data = st.other_data := by
  intro pls
  induction pls with
  | nil => intro h st; exact ⟨rfl, rfl⟩
  | cons pl pls ih =>
    intro h st
    simp only [List.all_cons, Bool.and_eq_true, Bool.not_eq_true'] at h
    by_cases hg : st.rows_read < MAX_ROWS_TO_READ
    · simp only [scanLines, if_pos hg]
      have hstep := scanStep_no_candidate gu fn st pl h.1
      have hrest := ih (by simpa using h.2) (scanStep gu fn st pl)
      exact ⟨by rw [hrest.1, hstep.1], by rw [hrest.2, hstep.2]⟩
    · rw [show scanLines gu fn st (pl :: pls) = (st, pl :: pls) from by
        simp only [scanLines, if_neg hg]]
      exact ⟨rfl, rfl⟩

/-- C9 (counterexample): a category with zero candidates is NOT marked
completed — after a run over it the store's completed set is still empty,
and a second run over the same input processes the category again. -/
theorem C9_empty_category_counterexample :
    ("Cat" ∉ get_completed_categories
        (parse_review_files [{ filename := "Cat", lines := [], saveFails := false }]
          { rows := [] }).db) ∧
      "Cat" ∈ (parse_review_files [{ filename := "Cat", lines := [], saveFails := false }]
          ((parse_review_files [{ filename := "Cat", lines := [], saveFails := false }]
            { rows := [] }).db)).processedFiles := by
  decide

/-- C9 (amended): a category with zero candidates produces an empty kept
set; the empty batch is never persisted, so the store is unchanged, the
category is NOT marked completed, and it IS processed again by any later
run in which its filename is still absent from the completed set. -/
theorem C9_empty_category_behavior (gu : Ledger) (db : DBState) (c : CategoryInput)
    (completed : List String) (rest : List CategoryInput)
    (h : c.lines.all (fun pl => !(isCandidate pl)) = true) :
    (processCategory gu c.filename c.lines).1 = [] ∧
      (categoryStep gu db c).db = db ∧
      (c.filename ∉ get_completed_categories db →
        c.filename ∉ get_completed_categories (categoryStep gu db c).db) ∧
      (c.filename ∉ completed →
        c.filename ∈ (runAux completed gu db (c :: rest)).processedFiles) := by
  have hscan := scan_no_candidates gu c.filename c.lines h initScanState
  have hkept : (processCategory gu c.filename c.lines).1 = [] := by
    simp only [processCategory, finalizeWith_fst]
    rw [hscan.1, hscan.2]
    simp [initScanState]
  have hdb : (categoryStep gu db c).db = db := by
    unfold categoryStep
    dsimp only
    rw [if_pos (by rw [hkept]; rfl)]
  refine ⟨hkept, hdb, fun hnc => by rw [hdb]; exact hnc, fun hnc => ?_⟩
  simp only [runAux, if_neg hnc]
  exact List.mem_cons_self _ _

/-- C9 witness: a category whose only line is malformed yields an empty
kept set. -/
theorem C9_empty_category_behavior_witness :
    (processCategory [] "Cat" [ParsedLine.malformed]).1 = [] :=
  (C9_empty_category_behavior [] { rows := [] }
    { filename := "Cat", lines := [ParsedLine.malformed], saveFails := false } [] []
    (by decide)).1
